import Mathlib

/-!
Shallow embedding of the gokv/mem in-memory key-value store
(src/store.go, src/cleanup.go).

Times are modelled by their `UnixNano` integer value.  The Go map
`map[interface{}]entry` (used only with string keys) is modelled as an
association list with unique keys; the RW mutex disappears in the
sequential model.  A `context.Context` that may already be done at the
entry of an operation is modelled by a boolean `ctxDone`; for `Cleanup`,
whose context can fire mid-iteration, doneness is a predicate on the
iteration counter.  JSON marshalling (`v.MarshalJSON`) is modelled by
passing the marshaller's result (`Except GoError ByteSeq`) to the
operation; unmarshalling into a caller sink (`v.UnmarshalJSON`) by a
function `ByteSeq → Option GoError` returning the decode error, if any.
-/

namespace Mem

/-- A serialized payload: an opaque byte sequence. -/
abbrev ByteSeq := List Nat

/-- The errors the store can return. `ctxErr` stands for `ctx.Err()`,
`errNoRows` for `store.ErrNoRows`, `errKeyExists` for `mem.ErrKeyExists`,
and `codecErr` for an arbitrary error produced by a caller-supplied
marshaller or unmarshaller. -/
inductive GoError where
  | ctxErr : GoError
  | errNoRows : GoError
  | errKeyExists : GoError
  | codecErr : String → GoError
deriving DecidableEq, Repr

/-- Go: `type entry struct { data []byte; validTo int64 }`.
`validTo = 0` is the sentinel for "no deadline". -/
structure Entry where
  data : ByteSeq
  validTo : Int
deriving DecidableEq, Repr

/-- Go: `func (e *entry) validAt(t time.Time) bool`:
`if e.validTo != 0 && t.UnixNano() > e.validTo { return false }; return true`. -/
def Entry.validAt (e : Entry) (t : Int) : Bool :=
  if e.validTo ≠ 0 ∧ t > e.validTo then false else true

/-- The store's map `m map[interface{}]entry`, as an association list.
A Go map has unique keys; theorems that need this take a
`(m.map Prod.fst).Nodup` hypothesis. -/
abbrev StoreMap := List (String × Entry)

/-- Go map lookup `e, ok := s.m[k]`. -/
def mapGet : StoreMap → String → Option Entry
  | [], _ => none
  | (k', e) :: rest, k => if k' = k then some e else mapGet rest k

/-- Go map assignment `s.m[k] = e`: replace the entry if the key is
present, insert it otherwise. -/
def mapSet : StoreMap → String → Entry → StoreMap
  | [], k, e => [(k, e)]
  | (k', e') :: rest, k, e =>
      if k' = k then (k, e) :: rest else (k', e') :: mapSet rest k e

/-- Go builtin `delete(s.m, k)`. -/
def mapDelete (m : StoreMap) (k : String) : StoreMap :=
  m.filter (fun p => p.1 ≠ k)

/-- Observable outcome of `Store.Get`: the `(bool, error)` return pair,
plus the bytes handed to the caller's value sink (`v.UnmarshalJSON(e.data)`),
`none` when the sink's unmarshaller was never invoked. -/
structure GetResult where
  found : Bool
  err : Option GoError
  sinkBytes : Option ByteSeq
deriving DecidableEq, Repr

namespace Store

/-- Go: `func (s *Store) Get(ctx, k, v) (bool, error)` (src/store.go):
fail fast on a done context; on an absent or invalid entry return
`(false, nil)` without touching the sink; otherwise return
`(true, v.UnmarshalJSON(e.data))`. -/
def Get (m : StoreMap) (ctxDone : Bool) (now : Int) (k : String)
    (unmarshal : ByteSeq → Option GoError) : GetResult :=
  if ctxDone then ⟨false, some .ctxErr, none⟩
  else
    match mapGet m k with
    | none => ⟨false, none, none⟩
    | some e =>
        if e.validAt now then ⟨true, unmarshal e.data, some e.data⟩
        else ⟨false, none, none⟩

/-- The iteration of `Store.GetAll` over the map: decode every valid
entry into a fresh sink slot (`c.New().UnmarshalJSON(e.data)`), skip
invalid ones, stop at the first decode error.  Returns the error and the
byte sequences handed to sink slots, in iteration order. -/
def getAllFrom (entries : List (String × Entry)) (now : Int)
    (unmarshal : ByteSeq → Option GoError) : Option GoError × List ByteSeq :=
  match entries with
  | [] => (none, [])
  | (_, e) :: rest =>
      if e.validAt now then
        match unmarshal e.data with
        | some err => (some err, [e.data])
        | none =>
            let r := getAllFrom rest now unmarshal
            (r.1, e.data :: r.2)
      else getAllFrom rest now unmarshal

/-- Go: `func (s *Store) GetAll(ctx, k, c) error` (src/store.go).
The parameter `k` appears in the Go signature but is never read by the
body; it is kept here to state that fact. -/
def GetAll (m : StoreMap) (ctxDone : Bool) (now : Int) (k : String)
    (unmarshal : ByteSeq → Option GoError) : Option GoError × List ByteSeq :=
  if ctxDone then (some .ctxErr, [])
  else getAllFrom m now unmarshal

/-- Go: `func (s *Store) Set(ctx, k, v) error` (src/store.go):
context check, `v.MarshalJSON()` (its result is the parameter `v` here),
second context check under the lock, then `s.m[k] = entry{data: b}`.
Returns the new map and the error. -/
def Set (m : StoreMap) (ctxDone : Bool) (k : String)
    (v : Except GoError ByteSeq) : StoreMap × Option GoError :=
  if ctxDone then (m, some .ctxErr)
  else
    match v with
    | .error err => (m, some err)
    | .ok b => (mapSet m k ⟨b, 0⟩, none)

/-- Go: `func (s *Store) SetWithDeadline(ctx, k, v, deadline) error`
(src/store.go): as `Set`, but stores `validTo: deadline.UnixNano()`.
`deadlineNano` is the deadline's `UnixNano` value. -/
def SetWithDeadline (m : StoreMap) (ctxDone : Bool) (k : String)
    (v : Except GoError ByteSeq) (deadlineNano : Int) : StoreMap × Option GoError :=
  if ctxDone then (m, some .ctxErr)
  else
    match v with
    | .error err => (m, some err)
    | .ok b => (mapSet m k ⟨b, deadlineNano⟩, none)

/-- Go: `func (s *Store) SetWithTimeout(ctx, k, v, timeout) error`:
`s.SetWithDeadline(ctx, k, v, time.Now().Add(timeout))`. -/
def SetWithTimeout (m : StoreMap) (ctxDone : Bool) (now : Int) (k : String)
    (v : Except GoError ByteSeq) (timeout : Int) : StoreMap × Option GoError :=
  SetWithDeadline m ctxDone k v (now + timeout)

/-- Go: `func (s *Store) Add(ctx, v) (string, error)` (src/store.go):
context check, marshal, generate a UUID key (the parameter `newKey`),
collision check, insert with no deadline.  Returns the new map, the
returned key and the error. -/
def Add (m : StoreMap) (ctxDone : Bool) (newKey : String)
    (v : Except GoError ByteSeq) : StoreMap × String × Option GoError :=
  if ctxDone then (m, "", some .ctxErr)
  else
    match v with
    | .error err => (m, "", some err)
    | .ok b =>
        if (mapGet m newKey).isSome then (m, "", some .errKeyExists)
        else (mapSet m newKey ⟨b, 0⟩, newKey, none)

/-- Go: `func (s *Store) Delete(ctx, k) error` (src/store.go):
context check, then `if _, ok := s.m[k]; !ok { return store.ErrNoRows }`,
then `delete(s.m, k)`.  The existence check is physical presence in the
map; validity is never consulted. -/
def Delete (m : StoreMap) (ctxDone : Bool) (k : String) : StoreMap × Option GoError :=
  if ctxDone then (m, some .ctxErr)
  else
    if (mapGet m k).isSome then (mapDelete m k, none)
    else (m, some .errNoRows)

/-- The iteration of `Store.Cleanup` (src/cleanup.go): before inspecting
each entry the context is polled (`done i` at the i-th iteration); if
done, the run aborts, leaving the remaining entries untouched; otherwise
an entry invalid at `now` is deleted. -/
def cleanupFrom (entries : List (String × Entry)) (now : Int)
    (done : Nat → Bool) (i : Nat) : List (String × Entry) :=
  match entries with
  | [] => []
  | (k, e) :: rest =>
      if done i then (k, e) :: rest
      else
        if e.validAt now then (k, e) :: cleanupFrom rest now done (i + 1)
        else cleanupFrom rest now done (i + 1)

/-- Go: `func (s *Store) Cleanup(ctx)` (src/cleanup.go): take the write
lock, capture `now := time.Now()` once, iterate the whole map deleting
entries invalid at that `now`, polling the context each iteration. -/
def Cleanup (m : StoreMap) (now : Int) (done : Nat → Bool) : StoreMap :=
  cleanupFrom m now done 0

end Store

/-- A context that never becomes done. -/
def neverDone : Nat → Bool := fun _ => false

/-- An unmarshaller that always succeeds (e.g. the `String` decoder of
the repository's tests, which never fails). -/
def okDecoder : ByteSeq → Option GoError := fun _ => none

/-! ### Helper lemmas about the map operations -/

theorem mapGet_mapSet_self (m : StoreMap) (k : String) (e : Entry) :
    mapGet (mapSet m k e) k = some e := by
  induction m with
  | nil => simp [mapSet, mapGet]
  | cons p rest ih =>
      obtain ⟨k', e'⟩ := p
      by_cases h : k' = k
      · simp [mapSet, mapGet, h]
      · simp [mapSet, mapGet, h, ih]

theorem mem_mapSet_self (m : StoreMap) (k : String) (e : Entry) :
    (k, e) ∈ mapSet m k e := by
  induction m with
  | nil => simp [mapSet]
  | cons p rest ih =>
      obtain ⟨k', e'⟩ := p
      by_cases h : k' = k
      · simp [mapSet, h]
      · simp only [mapSet, if_neg h]
        exact List.mem_cons_of_mem _ ih

theorem mapGet_mapDelete_self (m : StoreMap) (k : String) :
    mapGet (mapDelete m k) k = none := by
  induction m with
  | nil => rfl
  | cons p rest ih =>
      obtain ⟨k', e'⟩ := p
      by_cases h : k' = k
      · simpa [mapDelete, List.filter_cons, h] using ih
      · simpa [mapDelete, List.filter_cons, h, mapGet] using ih

theorem mapGet_eq_none_iff (m : StoreMap) (k : String) :
    mapGet m k = none ↔ ∀ p ∈ m, p.1 ≠ k := by
  induction m with
  | nil => simp [mapGet]
  | cons p rest ih =>
      obtain ⟨k', e'⟩ := p
      by_cases h : k' = k
      · simp [mapGet, h]
      · simp [mapGet, h, ih]

theorem mapGet_filter_valid_of_valid (m : StoreMap) (now : Int) (k : String) (e : Entry)
    (hget : mapGet m k = some e) (hv : e.validAt now = true) :
    mapGet (m.filter (fun p => p.2.validAt now)) k = some e := by
  induction m with
  | nil => simp [mapGet] at hget
  | cons p rest ih =>
      obtain ⟨k', e'⟩ := p
      by_cases h : k' = k
      · subst h
        simp only [mapGet, if_pos, Option.some.injEq, ite_true] at hget
        subst hget
        simp [List.filter_cons, hv, mapGet]
      · simp only [mapGet, if_neg h] at hget
        by_cases hv' : e'.validAt now
        · simp [List.filter_cons, hv', mapGet, h, ih hget]
        · simp [List.filter_cons, hv', ih hget]

theorem mapGet_filter_valid (m : StoreMap) (now : Int) (k : String)
    (hnd : (m.map Prod.fst).Nodup) :
    mapGet (m.filter (fun p => p.2.validAt now)) k =
      (mapGet m k).bind (fun e => if e.validAt now then some e else none) := by
  induction m with
  | nil => rfl
  | cons p rest ih =>
      obtain ⟨k', e'⟩ := p
      simp only [List.map_cons, List.nodup_cons] at hnd
      obtain ⟨hk', hnd'⟩ := hnd
      by_cases h : k' = k
      · subst h
        by_cases hv : e'.validAt now
        · simp [List.filter_cons, hv, mapGet]
        · have hnone : ∀ p ∈ rest.filter (fun p => p.2.validAt now), p.1 ≠ k' := by
            intro p hp hpk
            exact hk' (List.mem_map.mpr ⟨p, List.mem_of_mem_filter hp, hpk⟩)
          simp [List.filter_cons, hv, mapGet, (mapGet_eq_none_iff _ _).mpr hnone]
      · by_cases hv : e'.validAt now
        · simp [List.filter_cons, hv, mapGet, h, ih hnd']
        · simp [List.filter_cons, hv, mapGet, h, ih hnd']

theorem filter_key_mapSet (m : StoreMap) (k : String) (e : Entry)
    (hnd : (m.map Prod.fst).Nodup) :
    (mapSet m k e).filter (fun p => p.1 = k) = [(k, e)] := by
  induction m with
  | nil => simp [mapSet]
  | cons p rest ih =>
      obtain ⟨k', e'⟩ := p
      simp only [List.map_cons, List.nodup_cons] at hnd
      obtain ⟨hk', hnd'⟩ := hnd
      by_cases h : k' = k
      · subst h
        have hnil : rest.filter (fun p => p.1 = k') = [] := by
          rw [List.filter_eq_nil_iff]
          intro p hp
          simp only [decide_eq_true_eq]
          intro hpk
          exact hk' (List.mem_map.mpr ⟨p, hp, hpk⟩)
        simp [mapSet, List.filter_cons, hnil]
      · simp [mapSet, List.filter_cons, h, ih hnd']

theorem keys_mapSet_subset (m : StoreMap) (k : String) (e : Entry) (x : String)
    (hx : x ∈ (mapSet m k e).map Prod.fst) : x ∈ m.map Prod.fst ∨ x = k := by
  induction m with
  | nil => simpa [mapSet] using hx
  | cons p rest ih =>
      obtain ⟨k', e'⟩ := p
      by_cases h : k' = k
      · subst h
        simp only [mapSet, if_pos, ite_true, List.map_cons, List.mem_cons] at hx ⊢
        rcases hx with hx | hx
        · exact Or.inr hx
        · exact Or.inl (Or.inr hx)
      · simp only [mapSet, if_neg h, List.map_cons, List.mem_cons] at hx ⊢
        rcases hx with hx | hx
        · exact Or.inl (Or.inl hx)
        · rcases ih hx with hh | hh
          · exact Or.inl (Or.inr hh)
          · exact Or.inr hh

theorem nodup_keys_mapSet (m : StoreMap) (k : String) (e : Entry)
    (hnd : (m.map Prod.fst).Nodup) : ((mapSet m k e).map Prod.fst).Nodup := by
  induction m with
  | nil => simp [mapSet]
  | cons p rest ih =>
      obtain ⟨k', e'⟩ := p
      simp only [List.map_cons, List.nodup_cons] at hnd
      obtain ⟨hk', hnd'⟩ := hnd
      by_cases h : k' = k
      · subst h
        simp [mapSet, List.nodup_cons, hk', hnd']
      · simp only [mapSet, if_neg h, List.map_cons, List.nodup_cons]
        refine ⟨fun hmem => ?_, ih hnd'⟩
        rcases keys_mapSet_subset rest k e k' hmem with hh | hh
        · exact hk' hh
        · exact h hh

theorem cleanupFrom_neverDone (m : StoreMap) (now : Int) (i : Nat) :
    Store.cleanupFrom m now neverDone i = m.filter (fun p => p.2.validAt now) := by
  induction m generalizing i with
  | nil => rfl
  | cons p rest ih =>
      obtain ⟨k, e⟩ := p
      by_cases h : e.validAt now
      · simp [Store.cleanupFrom, neverDone, h, List.filter_cons, ih]
      · simp [Store.cleanupFrom, neverDone, h, List.filter_cons, ih]

theorem getAllFrom_okDec (m : StoreMap) (now : Int) :
    Store.getAllFrom m now okDecoder =
      (none, (m.filter (fun p => p.2.validAt now)).map (fun p => p.2.data)) := by
  induction m with
  | nil => rfl
  | cons p rest ih =>
      obtain ⟨k, e⟩ := p
      by_cases h : e.validAt now
      · simp [Store.getAllFrom, okDecoder, h, List.filter_cons, ih]
      · simp [Store.getAllFrom, okDecoder, h, List.filter_cons, ih]

/-! ### Claim theorems -/

/-- Claim C1: an entry with a deadline (`validTo ≠ 0`) is valid at time `t`
exactly when its deadline is greater than or equal to `t`
(boundary-inclusive), an entry with no deadline is valid at every time,
and every read path — `Get`, `Cleanup`, `GetAll` — treats an entry as
present exactly when it is valid at the observed time. -/
theorem claim1_validity_boundary :
    (∀ (e : Entry) (t : Int), e.validAt t = true ↔ (e.validTo = 0 ∨ t ≤ e.validTo)) ∧
    (∀ (m : StoreMap) (now : Int) (k : String) (u : ByteSeq → Option GoError) (e : Entry),
      mapGet m k = some e → (Store.Get m false now k u).found = e.validAt now) ∧
    (∀ (m : StoreMap) (now : Int),
      Store.Cleanup m now neverDone = m.filter (fun p => p.2.validAt now)) ∧
    (∀ (m : StoreMap) (now : Int) (k : String),
      Store.GetAll m false now k okDecoder =
        (none, (m.filter (fun p => p.2.validAt now)).map (fun p => p.2.data))) := by
  refine ⟨fun e t => ?_, fun m now k u e hget => ?_, fun m now => ?_, fun m now k => ?_⟩
  · by_cases h : e.validTo ≠ 0 ∧ t > e.validTo
    · simp only [Entry.validAt, if_pos h]
      constructor
      · intro hh; exact absurd hh (by simp)
      · intro hh; omega
    · simp only [Entry.validAt, if_neg h]
      constructor
      · intro _; omega
      · intro _; trivial
  · by_cases hv : e.validAt now <;> simp [Store.Get, hget, hv]
  · exact cleanupFrom_neverDone m now 0
  · simp [Store.GetAll, getAllFrom_okDec]

/-- Witness for C1's `Get` clause at a concrete expired entry. -/
theorem claim1_validity_boundary_witness :
    (Store.Get [("a", Entry.mk [1] 5)] false 6 "a" okDecoder).found
      = (Entry.mk [1] 5).validAt 6 :=
  claim1_validity_boundary.2.1 [("a", Entry.mk [1] 5)] 6 "a" okDecoder (Entry.mk [1] 5) rfl

/-- Claim C2: for a key absent from the map, or present but expired at the
observation time, `Get` returns `(false, nil)` — a miss is not an error —
and the caller's value sink is never written. -/
theorem claim2_get_miss_not_error (m : StoreMap) (now : Int) (k : String)
    (u : ByteSeq → Option GoError)
    (h : mapGet m k = none ∨ ∃ e, mapGet m k = some e ∧ e.validAt now = false) :
    Store.Get m false now k u = ⟨false, none, none⟩ := by
  rcases h with h | ⟨e, hget, hv⟩
  · simp [Store.Get, h]
  · simp [Store.Get, hget, hv]

/-- Witness for C2: a key that was never set. -/
theorem claim2_get_miss_not_error_witness :
    Store.Get [] false 0 "x" okDecoder = ⟨false, none, none⟩ :=
  claim2_get_miss_not_error [] 0 "x" okDecoder (Or.inl rfl)

/-- Claim C3: a `Cleanup` run whose context is never done uses a single
timestamp and removes exactly the entries invalid at it: afterwards every
key holds its old entry if that entry was valid at the captured `now`,
and is gone otherwise. -/
theorem claim3_cleanup_removes_exactly_invalid (m : StoreMap) (now : Int)
    (hnd : (m.map Prod.fst).Nodup) (k : String) :
    mapGet (Store.Cleanup m now neverDone) k =
      (mapGet m k).bind (fun e => if e.validAt now then some e else none) := by
  unfold Store.Cleanup
  rw [cleanupFrom_neverDone]
  exact mapGet_filter_valid m now k hnd

/-- Witness for C3 on a two-entry map holding one expired and one
immortal entry, probed at both keys. -/
theorem claim3_cleanup_removes_exactly_invalid_witness :
    mapGet (Store.Cleanup [("a", Entry.mk [1] 5), ("b", Entry.mk [2] 0)] 10 neverDone) "a" =
      (mapGet [("a", Entry.mk [1] 5), ("b", Entry.mk [2] 0)] "a").bind
        (fun e => if e.validAt 10 then some e else none) :=
  claim3_cleanup_removes_exactly_invalid
    [("a", Entry.mk [1] 5), ("b", Entry.mk [2] 0)] 10 (by decide) "a"

/-- Claim C4: `Delete` is strict: a physically present key is removed
with a `nil` error and a subsequent `Get` misses it; an absent key
yields `store.ErrNoRows` with the map unchanged, so a second `Delete`
yields the same error. -/
theorem claim4_delete_strict (m : StoreMap) (k : String) (now : Int)
    (u : ByteSeq → Option GoError) :
    (∀ e, mapGet m k = some e →
      Store.Delete m false k = (mapDelete m k, none) ∧
      Store.Get (mapDelete m k) false now k u = ⟨false, none, none⟩) ∧
    (mapGet m k = none →
      Store.Delete m false k = (m, some .errNoRows) ∧
      Store.Delete (Store.Delete m false k).1 false k = (m, some .errNoRows)) := by
  constructor
  · intro e hget
    constructor
    · simp [Store.Delete, hget]
    · simp [Store.Get, mapGet_mapDelete_self]
  · intro hnone
    have h1 : Store.Delete m false k = (m, some .errNoRows) := by
      simp [Store.Delete, hnone]
    refine ⟨h1, ?_⟩
    rw [h1]
    exact h1

/-- Witness for C4: both the present-key and the absent-key branch at
concrete inputs. -/
theorem claim4_delete_strict_witness :
    (Store.Delete [("a", Entry.mk [1] 0)] false "a"
        = (mapDelete [("a", Entry.mk [1] 0)] "a", none) ∧
      Store.Get (mapDelete [("a", Entry.mk [1] 0)] "a") false 0 "a" okDecoder
        = ⟨false, none, none⟩) ∧
    (Store.Delete [] false "b" = ([], some .errNoRows) ∧
      Store.Delete (Store.Delete [] false "b").1 false "b" = ([], some .errNoRows)) :=
  ⟨(claim4_delete_strict [("a", Entry.mk [1] 0)] "a" 0 okDecoder).1 (Entry.mk [1] 0) rfl,
   (claim4_delete_strict [] "b" 0 okDecoder).2 rfl⟩

/-- Claim C5: a successful `Set(k, v)` is last-writer-wins and clears any
prior deadline: the new map holds exactly one entry for `k`, whose payload
is the encoding of `v` and whose `validTo` is the no-deadline sentinel 0,
whatever was stored before; setting the same key twice leaves exactly one
entry equal to the second write. -/
theorem claim5_set_overwrite (m : StoreMap) (k : String) (b b1 b2 : ByteSeq)
    (hnd : (m.map Prod.fst).Nodup) :
    Store.Set m false k (.ok b) = (mapSet m k ⟨b, 0⟩, none) ∧
    (mapSet m k ⟨b, 0⟩).filter (fun p => p.1 = k) = [(k, ⟨b, 0⟩)] ∧
    mapGet (mapSet m k ⟨b, 0⟩) k = some ⟨b, 0⟩ ∧
    ((Store.Set (Store.Set m false k (.ok b1)).1 false k (.ok b2)).1).filter
        (fun p => p.1 = k) = [(k, ⟨b2, 0⟩)] := by
  refine ⟨rfl, filter_key_mapSet m k _ hnd, mapGet_mapSet_self m k _, ?_⟩
  show ((mapSet (mapSet m k ⟨b1, 0⟩) k ⟨b2, 0⟩)).filter (fun p => p.1 = k) = [(k, ⟨b2, 0⟩)]
  exact filter_key_mapSet _ k _ (nodup_keys_mapSet m k _ hnd)

/-- Witness for C5 on a map that already holds a deadline for the key. -/
theorem claim5_set_overwrite_witness :
    Store.Set [("a", Entry.mk [9] 7)] false "a" (.ok [1])
        = (mapSet [("a", Entry.mk [9] 7)] "a" ⟨[1], 0⟩, none) ∧
    (mapSet [("a", Entry.mk [9] 7)] "a" ⟨[1], 0⟩).filter (fun p => p.1 = "a")
        = [("a", ⟨[1], 0⟩)] ∧
    mapGet (mapSet [("a", Entry.mk [9] 7)] "a" ⟨[1], 0⟩) "a" = some ⟨[1], 0⟩ ∧
    ((Store.Set (Store.Set [("a", Entry.mk [9] 7)] false "a" (.ok [1])).1 false "a"
        (.ok [2])).1).filter (fun p => p.1 = "a") = [("a", ⟨[2], 0⟩)] :=
  claim5_set_overwrite [("a", Entry.mk [9] 7)] "a" [1] [1] [2] (by decide)

/-- Claim C6: when the value's encoder fails, `Set`, `SetWithDeadline`
and `Add` return the encoder's error verbatim and leave the map
unchanged. -/
theorem claim6_encode_failure_unchanged (m : StoreMap) (k newKey : String)
    (dl : Int) (err : GoError) :
    Store.Set m false k (.error err) = (m, some err) ∧
    Store.SetWithDeadline m false k (.error err) dl = (m, some err) ∧
    Store.Add m false newKey (.error err) = (m, "", some err) :=
  ⟨rfl, rfl, rfl⟩

/-- Claim C7: every public operation called with a context already done
at entry returns the context's cancellation error and leaves the map
untouched. -/
theorem claim7_done_context_no_mutation (m : StoreMap) (now dl timeout : Int)
    (k newKey : String) (v : Except GoError ByteSeq) (u : ByteSeq → Option GoError) :
    Store.Get m true now k u = ⟨false, some .ctxErr, none⟩ ∧
    Store.GetAll m true now k u = (some .ctxErr, []) ∧
    Store.Set m true k v = (m, some .ctxErr) ∧
    Store.SetWithTimeout m true now k v timeout = (m, some .ctxErr) ∧
    Store.SetWithDeadline m true k v dl = (m, some .ctxErr) ∧
    Store.Add m true newKey v = (m, "", some .ctxErr) ∧
    Store.Delete m true k = (m, some .ctxErr) :=
  ⟨rfl, rfl, rfl, rfl, rfl, rfl, rfl⟩

/-- Claim C8: `SetWithDeadline` with a deadline whose `UnixNano` value is
exactly 0 stores an entry that never expires: `validTo = 0` is the
no-deadline sentinel, so the entry is valid at every time and is treated
as present by `Get`, `Cleanup` and `GetAll` at every observation time. -/
theorem claim8_epoch_deadline_never_expires (m : StoreMap) (k : String) (b : ByteSeq)
    (t : Int) (u : ByteSeq → Option GoError) :
    Store.SetWithDeadline m false k (.ok b) 0 = (mapSet m k ⟨b, 0⟩, none) ∧
    (Entry.mk b 0).validAt t = true ∧
    Store.Get (mapSet m k ⟨b, 0⟩) false t k u = ⟨true, u b, some b⟩ ∧
    mapGet (Store.Cleanup (mapSet m k ⟨b, 0⟩) t neverDone) k = some ⟨b, 0⟩ ∧
    b ∈ (Store.GetAll (mapSet m k ⟨b, 0⟩) false t k okDecoder).2 := by
  have hv : (Entry.mk b 0).validAt t = true := by simp [Entry.validAt]
  refine ⟨rfl, hv, ?_, ?_, ?_⟩
  · simp [Store.Get, mapGet_mapSet_self, hv]
  · unfold Store.Cleanup
    rw [cleanupFrom_neverDone]
    exact mapGet_filter_valid_of_valid _ t k _ (mapGet_mapSet_self m k _) hv
  · simp only [Store.GetAll, if_neg (by simp : ¬(false = true)), getAllFrom_okDec]
    refine List.mem_map.mpr ⟨(k, Entry.mk b 0), ?_, rfl⟩
    exact List.mem_filter.mpr ⟨mem_mapSet_self m k _, hv⟩

/-- Claim C9: `Delete` checks physical presence only: a key whose entry
is expired is still deleted with a `nil` error, even though `Get`
reports it as not found. -/
theorem claim9_delete_ignores_expiry (m : StoreMap) (k : String) (now : Int)
    (u : ByteSeq → Option GoError) (e : Entry)
    (hget : mapGet m k = some e) (hexp : e.validAt now = false) :
    Store.Delete m false k = (mapDelete m k, none) ∧
    (Store.Get m false now k u).found = false := by
  constructor
  · simp [Store.Delete, hget]
  · simp [Store.Get, hget, hexp]

/-- Witness for C9: a physically present but expired entry. -/
theorem claim9_delete_ignores_expiry_witness :
    Store.Delete [("a", Entry.mk [1] 5)] false "a"
        = (mapDelete [("a", Entry.mk [1] 5)] "a", none) ∧
    (Store.Get [("a", Entry.mk [1] 5)] false 10 "a" okDecoder).found = false :=
  claim9_delete_ignores_expiry [("a", Entry.mk [1] 5)] "a" 10 okDecoder
    (Entry.mk [1] 5) rfl (by decide)

/-- Claim C10: `GetAll` never reads its string parameter: two calls
differing only in that parameter return identical results. -/
theorem claim10_getall_ignores_key (m : StoreMap) (ctxDone : Bool) (now : Int)
    (k1 k2 : String) (u : ByteSeq → Option GoError) :
    Store.GetAll m ctxDone now k1 u = Store.GetAll m ctxDone now k2 u := rfl

end Mem
